import Mathlib

/-!
A shallow embedding of the miniature glob-like pattern matcher found in
`src/exercises/08_finale/exercise/src/main.rs`, together with theorems that
check the repository's specification against the code.

Rust `&str` values are modelled as lists of Unicode scalar values
(`Str := List Char`).  Rust's byte-indexed slicing (`&s[..k]`, `&s[k..]`,
`&s[a..b]`), which panics when an index is out of bounds or not on a
character boundary, is modelled by fallible functions returning `Option`:
`none` models a panic.  The compile loop of `Matcher::new` is modelled with
explicit fuel so that its (non-)termination can be reasoned about.
-/

/-- Strings as lists of Unicode scalar values, the value content of a Rust
`&str` (the bytes being the UTF-8 encoding of these scalars). -/
abbrev Str : Type := List Char

/-- Number of bytes of the UTF-8 encoding of one scalar value. -/
def csize (c : Char) : Nat :=
  if c.toNat < 0x80 then 1
  else if c.toNat < 0x800 then 2
  else if c.toNat < 0x10000 then 3
  else 4

/-- Byte length of a string: Rust's `str::len`. -/
def byteLen : Str → Nat
  | [] => 0
  | c :: cs => csize c + byteLen cs

/-- Rust `s.starts_with(p)` for string patterns `p`. -/
def startsWith : Str → Str → Bool
  | _, [] => true
  | [], _ :: _ => false
  | c :: cs, d :: ds => if c = d then startsWith cs ds else false

/-- Rust `s.starts_with(c)` for a one-character pattern. -/
def startsWithChar (s : Str) (c : Char) : Bool :=
  match s with
  | [] => false
  | d :: _ => d = c

/-- Rust `&s[..k]` (byte index `k`): the scalar values of the first `k`
bytes, or `none` (a panic) when `k` overruns the string or falls inside a
multi-byte character. -/
def sliceTo (s : Str) (k : Nat) : Option Str :=
  if k = 0 then some []
  else
    match s with
    | [] => none
    | c :: cs =>
        if csize c ≤ k then (sliceTo cs (k - csize c)).map (fun t => c :: t)
        else none

/-- Rust `&s[k..]` (byte index `k`): the scalar values from byte `k` on, or
`none` (a panic) when `k` overruns the string or falls inside a multi-byte
character. -/
def sliceFrom (s : Str) (k : Nat) : Option Str :=
  if k = 0 then some s
  else
    match s with
    | [] => none
    | c :: cs =>
        if csize c ≤ k then sliceFrom cs (k - csize c)
        else none

/-- Rust `&s[a..b]`: panics (`none`) when `a > b` or either index is
invalid. -/
def sliceRange (s : Str) (a b : Nat) : Option Str :=
  if a ≤ b then (sliceFrom s a).bind (fun t => sliceTo t (b - a))
  else none

/-- Rust `s.find(c)` for a one-character pattern: byte index of the first
occurrence of `c`. -/
def findByte (s : Str) (c : Char) : Option Nat :=
  match s with
  | [] => none
  | d :: ds => if d = c then some 0 else (findByte ds c).map (fun i => csize d + i)

/-- The compiled token type, `MatcherToken` from the source. -/
inductive MatcherToken where
  /-- `RawText`: just text without anything special. -/
  | RawText (r : Str)
  /-- `OneOfText`: text that could be any one of multiple strings. -/
  | OneOfText (vs : List Str)
  /-- `WildCard`: any single character. -/
  | WildCard
  deriving DecidableEq

/-- The `Matcher` struct from the source. -/
structure Matcher where
  text : Str
  tokens : List MatcherToken
  most_tokens_matched : Nat
  deriving DecidableEq

/-- Rust `leftovers[1..close_index].split('|').collect()`: split at every
pipe, keeping empty pieces; splitting the empty string yields one empty
piece. -/
def splitPipe : Str → List Str
  | [] => [[]]
  | c :: cs =>
      if c = '|' then [] :: splitPipe cs
      else
        match splitPipe cs with
        | [] => [[c]]
        | p :: ps => (c :: p) :: ps

/-- The `next_separator` computation in the literal branch of
`Matcher::new`: the nearer of the next `.` and the next `(`. -/
def nextSep (s : Str) : Option Nat :=
  match findByte s '.', findByte s '(' with
  | some a, some b => some (min a b)
  | none, some a => some a
  | some a, none => some a
  | none, none => none

/-- Outcome of running the `while` loop of `Matcher::new` on bounded fuel. -/
inductive NewRes where
  /-- The fuel ran out before the loop finished. -/
  | fuelOut
  /-- The loop executed `return None` (unterminated group). -/
  | malformed
  /-- A slicing operation panicked. -/
  | panicked
  /-- The loop finished with this token list. -/
  | ok (tokens : List MatcherToken)
  deriving DecidableEq

/-- One-to-one embedding of the `while leftovers.len() > 0` loop of
`Matcher::new`, with `fuel` bounding the number of iterations.  The three
branches mirror lines 37–65 of the source: wildcard, group, literal run.
In the literal branch with no following separator the source pushes
`RawText(&leftovers)` and neither advances `leftovers` nor breaks. -/
def newLoop : Nat → List MatcherToken → Str → NewRes
  | 0, _, _ => NewRes.fuelOut
  | fuel + 1, tokens, leftovers =>
      if byteLen leftovers = 0 then NewRes.ok tokens
      else if startsWithChar leftovers '.' then
        (match sliceFrom leftovers 1 with
        | some rest => newLoop fuel (tokens ++ [MatcherToken.WildCard]) rest
        | none => NewRes.panicked)
      else if startsWithChar leftovers '(' then
        (match findByte leftovers ')' with
        | none => NewRes.malformed
        | some close_index =>
            match sliceRange leftovers 1 close_index with
            | none => NewRes.panicked
            | some inner =>
                if close_index + 1 < byteLen leftovers then
                  match sliceFrom leftovers (close_index + 1) with
                  | some rest =>
                      newLoop fuel
                        (tokens ++ [MatcherToken.OneOfText (splitPipe inner)]) rest
                  | none => NewRes.panicked
                else NewRes.ok (tokens ++ [MatcherToken.OneOfText (splitPipe inner)]))
      else
        match nextSep leftovers with
        | some index =>
            match sliceTo leftovers index, sliceFrom leftovers index with
            | some lit, some rest =>
                newLoop fuel (tokens ++ [MatcherToken.RawText lit]) rest
            | _, _ => NewRes.panicked
        | none => newLoop fuel (tokens ++ [MatcherToken.RawText leftovers]) leftovers

/-- Outcome of a call to `Matcher::new` on bounded fuel. -/
inductive NewResult where
  /-- The call never returns within the given fuel. -/
  | fuelOut
  /-- A slicing operation panicked. -/
  | panicked
  /-- The call returned this `Option<Matcher>`. -/
  | ret (res : Option Matcher)
  deriving DecidableEq

/-- `Matcher::new`: run the scan loop from the whole pattern text with an
empty token list; on success the `Matcher` stores the original text, the
tokens, and `most_tokens_matched = 0`. -/
def Matcher.new (text : Str) (fuel : Nat) : NewResult :=
  match newLoop fuel [] text with
  | NewRes.fuelOut => NewResult.fuelOut
  | NewRes.panicked => NewResult.panicked
  | NewRes.malformed => NewResult.ret none
  | NewRes.ok tokens => NewResult.ret (some (Matcher.mk text tokens 0))

/-- The inner `for variant in variants` loop of the `OneOfText` arm of
`match_string`: the first variant that `substring` starts with is recorded
(via `&substring[..variant.len()]`) and the cursor advances past it
(`&substring[variant.len()..]`).  `some none` models falling through to
`break`; the outer `none` models a slicing panic. -/
def tryVariants : List Str → Str → Option (Option (Str × Str))
  | [], _ => some none
  | v :: vs, s =>
      if startsWith s v then
        (match sliceTo s (byteLen v), sliceFrom s (byteLen v) with
        | some m, some rest => some (some (m, rest))
        | _, _ => none)
      else tryVariants vs s

/-- The `'outer_loop` of `match_string` over the token list, carrying the
`substring` cursor.  Each arm mirrors lines 84–106 of the source; `none`
models a panic of one of the byte slicings (reachable only in the
`WildCard` arm, through `&substring[..1]`). -/
def matchTokens : List MatcherToken → Str → Option (List (MatcherToken × Str))
  | [], _ => some []
  | t :: rest, s =>
      match t with
      | MatcherToken.RawText r =>
          if startsWith s r then
            (match sliceTo s (byteLen r), sliceFrom s (byteLen r) with
            | some m, some s2 =>
                (matchTokens rest s2).map (fun tail => (t, m) :: tail)
            | _, _ => none)
          else some []
      | MatcherToken.OneOfText vs =>
          match tryVariants vs s with
          | none => none
          | some none => some []
          | some (some (m, s2)) =>
              (matchTokens rest s2).map (fun tail => (t, m) :: tail)
      | MatcherToken.WildCard =>
          match sliceTo s 1, sliceFrom s 1 with
          | some m, some s2 =>
              (matchTokens rest s2).map (fun tail => (t, m) :: tail)
          | _, _ => none

/-- `Matcher::match_string`: runs the token walk and then overwrites
`most_tokens_matched` with `answer.len()`.  The returned pair is the answer
vector together with the matcher after the field update; `none` models a
panic, in which case the assignment on line 108 is never reached. -/
def Matcher.match_string (m : Matcher) (s : Str) :
    Option (List (MatcherToken × Str) × Matcher) :=
  (matchTokens m.tokens s).map
    (fun answer => (answer, Matcher.mk m.text m.tokens answer.length))

/-- Convenience: the scalar values of a Lean string literal. -/
def toStr (s : String) : Str := s.data

/-- `p` occurs contiguously inside `s`: the "substring of the original
pattern text" relation of the specification. -/
def SubstringOf (p s : Str) : Prop := ∃ u v, u ++ p ++ v = s

/-- The failure condition named by the specification: some group-open
marker has no group-close marker anywhere in the remainder of the text. -/
def hasUnterminatedParen : Str → Bool
  | [] => false
  | c :: cs => (c = '(' && !(cs.contains ')')) || hasUnterminatedParen cs

/-- The compile-time invariant of one token, relative to the pattern text:
a `RawText` payload is a non-empty substring of the pattern, an `OneOfText`
payload is a non-empty list of (possibly empty) substrings of the pattern,
and `WildCard` carries nothing. -/
def TokenGood (text : Str) : MatcherToken → Prop
  | MatcherToken.RawText r => r ≠ [] ∧ SubstringOf r text
  | MatcherToken.OneOfText vs => vs ≠ [] ∧ ∀ v ∈ vs, SubstringOf v text
  | MatcherToken.WildCard => True

/-- The pattern of the repository's `simple_test`. -/
def pat1 : Str := toStr "abc(d|e|f)."

/-- The token sequence `Matcher::new` produces for `pat1`. -/
def tokens1 : List MatcherToken :=
  [MatcherToken.RawText (toStr "abc"),
   MatcherToken.OneOfText [toStr "d", toStr "e", toStr "f"],
   MatcherToken.WildCard]

/-- The matcher of the repository's `simple_test`, freshly compiled. -/
def m1 : Matcher := Matcher.mk pat1 tokens1 0

theorem csize_pos (c : Char) : 1 ≤ csize c := by
  unfold csize
  split_ifs <;> omega

theorem sliceTo_of_startsWith :
    ∀ (p s : Str), startsWith s p = true → sliceTo s (byteLen p) = some p := by
  intro p
  induction p with
  | nil =>
      intro s _
      show sliceTo s 0 = some []
      rw [sliceTo.eq_def]
      simp
  | cons d ds ih =>
      intro s h
      cases s with
      | nil => simp [startsWith] at h
      | cons c cs =>
          rw [startsWith] at h
          split_ifs at h with hc
          subst hc
          have hk : csize c + byteLen ds ≠ 0 := by
            have := csize_pos c
            omega
          rw [byteLen, sliceTo]
          simp only [hk, if_false, Nat.le_add_right, if_true, Nat.add_sub_cancel_left]
          rw [ih cs h]
          rfl

theorem sliceFrom_of_startsWith :
    ∀ (p s : Str), startsWith s p = true →
      sliceFrom s (byteLen p) = some (s.drop p.length) := by
  intro p
  induction p with
  | nil =>
      intro s _
      show sliceFrom s 0 = some (s.drop 0)
      rw [sliceFrom.eq_def]
      simp
  | cons d ds ih =>
      intro s h
      cases s with
      | nil => simp [startsWith] at h
      | cons c cs =>
          rw [startsWith] at h
          split_ifs at h with hc
          subst hc
          have hk : csize c + byteLen ds ≠ 0 := by
            have := csize_pos c
            omega
          rw [byteLen, sliceFrom]
          simp only [hk, if_false, Nat.le_add_right, if_true, Nat.add_sub_cancel_left]
          rw [ih cs h]
          rfl

theorem sliceTo_append :
    ∀ (s : Str) (k : Nat) (r : Str), sliceTo s k = some r → ∃ w, r ++ w = s := by
  intro s
  induction s with
  | nil =>
      intro k r h
      by_cases hk : k = 0
      · subst hk
        simp [sliceTo] at h
        subst h
        exact ⟨[], rfl⟩
      · simp [sliceTo, hk] at h
  | cons c cs ih =>
      intro k r h
      by_cases hk : k = 0
      · subst hk
        simp [sliceTo] at h
        subst h
        exact ⟨c :: cs, rfl⟩
      · rw [sliceTo] at h
        simp only [hk, if_false] at h
        split_ifs at h with hle
        rw [Option.map_eq_some'] at h
        obtain ⟨r2, hr2, hr3⟩ := h
        obtain ⟨w, hw⟩ := ih (k - csize c) r2 hr2
        exact ⟨w, by rw [← hr3]; simp [← hw]⟩

theorem sliceFrom_append :
    ∀ (s : Str) (k : Nat) (r : Str), sliceFrom s k = some r → ∃ u, u ++ r = s := by
  intro s
  induction s with
  | nil =>
      intro k r h
      by_cases hk : k = 0
      · subst hk
        simp [sliceFrom] at h
        subst h
        exact ⟨[], rfl⟩
      · simp [sliceFrom, hk] at h
  | cons c cs ih =>
      intro k r h
      by_cases hk : k = 0
      · subst hk
        simp [sliceFrom] at h
        subst h
        exact ⟨[], rfl⟩
      · rw [sliceFrom] at h
        simp only [hk, if_false] at h
        split_ifs at h with hle
        obtain ⟨u, hu⟩ := ih (k - csize c) r h
        exact ⟨c :: u, by rw [← hu]; rfl⟩

theorem sliceTo_ne_nil :
    ∀ (s : Str) (k : Nat) (r : Str), k ≠ 0 → sliceTo s k = some r → r ≠ [] := by
  intro s k r hk h
  cases s with
  | nil => simp [sliceTo, hk] at h
  | cons c cs =>
      rw [sliceTo] at h
      simp only [hk, if_false] at h
      split_ifs at h with hle
      rw [Option.map_eq_some'] at h
      obtain ⟨r2, hr2, hr3⟩ := h
      rw [← hr3]
      simp

theorem splitPipe_ne_nil : ∀ s : Str, splitPipe s ≠ [] := by
  intro s
  cases s with
  | nil => simp [splitPipe]
  | cons c cs =>
      rw [splitPipe]
      split_ifs
      · simp
      · cases h : splitPipe cs with
        | nil => simp
        | cons p ps => simp

theorem splitPipe_first :
    ∀ s : Str, ∃ p ps, splitPipe s = p :: ps ∧ (∃ t, p ++ t = s) ∧
      ∀ q ∈ ps, SubstringOf q s := by
  intro s
  induction s with
  | nil => exact ⟨[], [], rfl, ⟨[], rfl⟩, by simp⟩
  | cons c cs ih =>
      obtain ⟨p, ps, hsp, ⟨t, ht⟩, hmem⟩ := ih
      by_cases hc : c = '|'
      · refine ⟨[], p :: ps, ?_, ⟨c :: cs, rfl⟩, ?_⟩
        · rw [splitPipe, if_pos hc, hsp]
        · intro q hq
          cases hq with
          | head => exact ⟨[c], t, by rw [← ht]; rfl⟩
          | tail _ hq2 =>
              obtain ⟨a, b, hab⟩ := hmem q hq2
              exact ⟨c :: a, b, by rw [← hab]; rfl⟩
      · refine ⟨c :: p, ps, ?_, ⟨t, by rw [← ht]; rfl⟩, ?_⟩
        · rw [splitPipe, if_neg hc, hsp]
        · intro q hq
          obtain ⟨a, b, hab⟩ := hmem q hq
          exact ⟨c :: a, b, by rw [← hab]; rfl⟩

theorem splitPipe_substring :
    ∀ (s v : Str), v ∈ splitPipe s → SubstringOf v s := by
  intro s v hv
  obtain ⟨p, ps, hsp, ⟨t, ht⟩, hmem⟩ := splitPipe_first s
  rw [hsp] at hv
  cases hv with
  | head => exact ⟨[], t, by rw [← ht]; rfl⟩
  | tail _ hv2 => exact hmem v hv2

theorem findByte_pos :
    ∀ (s : Str) (c : Char) (i : Nat), findByte s c = some i →
      startsWithChar s c = false → 1 ≤ i := by
  intro s c i h hs
  cases s with
  | nil => simp [findByte] at h
  | cons d ds =>
      rw [findByte] at h
      have hd : ¬ d = c := by
        simp [startsWithChar] at hs
        exact hs
      rw [if_neg hd, Option.map_eq_some'] at h
      obtain ⟨j, hj, hji⟩ := h
      have := csize_pos d
      omega

theorem nextSep_pos (s : Str) (i : Nat) (h : nextSep s = some i)
    (h1 : startsWithChar s '.' = false) (h2 : startsWithChar s '(' = false) :
    1 ≤ i := by
  unfold nextSep at h
  cases hd : findByte s '.' with
  | none =>
      cases hp : findByte s '(' with
      | none => rw [hd, hp] at h; simp at h
      | some b =>
          rw [hd, hp] at h
          simp at h
          subst h
          exact findByte_pos s '(' b hp h2
  | some a =>
      cases hp : findByte s '(' with
      | none =>
          rw [hd, hp] at h
          simp at h
          subst h
          exact findByte_pos s '.' a hd h1
      | some b =>
          rw [hd, hp] at h
          simp at h
          subst h
          exact le_min (findByte_pos s '.' a hd h1) (findByte_pos s '(' b hp h2)

theorem tryVariants_eq :
    ∀ (vs : List Str) (s : Str),
      tryVariants vs s =
        some (match vs.find? (fun v => startsWith s v) with
          | some v => some (v, s.drop v.length)
          | none => none) := by
  intro vs s
  induction vs with
  | nil => rfl
  | cons v vs ih =>
      rw [tryVariants]
      by_cases hv : startsWith s v = true
      · rw [if_pos hv, sliceTo_of_startsWith v s hv, sliceFrom_of_startsWith v s hv,
          List.find?_cons_of_pos _ hv]
      · rw [if_neg hv, ih,
          List.find?_cons_of_neg _ hv]

theorem byteLen_eq_zero : ∀ s : Str, byteLen s = 0 ↔ s = [] := by
  intro s
  cases s with
  | nil => simp [byteLen]
  | cons c cs =>
      rw [byteLen]
      have := csize_pos c
      constructor
      · intro h
        omega
      · intro h
        exact absurd h (by simp)

theorem substring_trans {a b c : Str}
    (h1 : SubstringOf a b) (h2 : SubstringOf b c) : SubstringOf a c := by
  obtain ⟨u1, v1, e1⟩ := h1
  obtain ⟨u2, v2, e2⟩ := h2
  subst e2
  subst e1
  exact ⟨u2 ++ u1, v1 ++ v2, by simp [List.append_assoc]⟩

theorem sliceRange_substring (s : Str) (a b : Nat) (r : Str)
    (h : sliceRange s a b = some r) : SubstringOf r s := by
  unfold sliceRange at h
  split_ifs at h with hab
  rw [Option.bind_eq_some] at h
  obtain ⟨t, ht1, ht2⟩ := h
  obtain ⟨u, hu⟩ := sliceFrom_append s a t ht1
  obtain ⟨w, hw⟩ := sliceTo_append t (b - a) r ht2
  subst hu
  subst hw
  exact ⟨u, w, List.append_assoc u r w⟩

theorem matchTokens_none_wildcard :
    ∀ (tokens : List MatcherToken) (s : Str),
      matchTokens tokens s = none → MatcherToken.WildCard ∈ tokens := by
  intro tokens
  induction tokens with
  | nil =>
      intro s h
      simp [matchTokens] at h
  | cons t rest ih =>
      intro s h
      cases t with
      | RawText r =>
          rw [matchTokens] at h
          by_cases hr : startsWith s r = true
          · rw [if_pos hr, sliceTo_of_startsWith r s hr,
              sliceFrom_of_startsWith r s hr] at h
            rw [Option.map_eq_none'] at h
            exact List.mem_cons_of_mem _ (ih _ h)
          · rw [if_neg hr] at h
            simp at h
      | OneOfText vs =>
          rw [matchTokens, tryVariants_eq] at h
          cases hf : vs.find? (fun v => startsWith s v) with
          | none =>
              rw [hf] at h
              simp at h
          | some v =>
              rw [hf] at h
              simp only [Option.map_eq_none'] at h
              exact List.mem_cons_of_mem _ (ih _ h)
      | WildCard => exact List.mem_cons_self _ _

theorem matchTokens_take :
    ∀ (tokens : List MatcherToken) (s : Str) (ans : List (MatcherToken × Str)),
      matchTokens tokens s = some ans →
      List.map Prod.fst ans = List.take ans.length tokens ∧
        ans.length ≤ tokens.length := by
  intro tokens
  induction tokens with
  | nil =>
      intro s ans h
      simp [matchTokens] at h
      subst h
      simp
  | cons t rest ih =>
      intro s ans h
      cases t with
      | RawText r =>
          rw [matchTokens] at h
          by_cases hr : startsWith s r = true
          · rw [if_pos hr, sliceTo_of_startsWith r s hr,
              sliceFrom_of_startsWith r s hr] at h
            rw [Option.map_eq_some'] at h
            obtain ⟨tail, htail, hans⟩ := h
            obtain ⟨ht1, ht2⟩ := ih _ tail htail
            subst hans
            refine ⟨?_, by simp; omega⟩
            simp [ht1]
          · rw [if_neg hr] at h
            simp at h
            subst h
            simp
      | OneOfText vs =>
          rw [matchTokens, tryVariants_eq] at h
          cases hf : vs.find? (fun v => startsWith s v) with
          | none =>
              rw [hf] at h
              simp at h
              subst h
              simp
          | some v =>
              rw [hf] at h
              simp only [Option.map_eq_some'] at h
              obtain ⟨tail, htail, hans⟩ := h
              obtain ⟨ht1, ht2⟩ := ih _ tail htail
              subst hans
              refine ⟨?_, by simp; omega⟩
              simp [ht1]
      | WildCard =>
          rw [matchTokens] at h
          cases h1 : sliceTo s 1 with
          | none =>
              rw [h1] at h
              simp at h
          | some m =>
              rw [h1] at h
              cases h2 : sliceFrom s 1 with
              | none =>
                  rw [h2] at h
                  simp at h
              | some s2 =>
                  rw [h2] at h
                  simp only [Option.map_eq_some'] at h
                  obtain ⟨tail, htail, hans⟩ := h
                  obtain ⟨ht1, ht2⟩ := ih _ tail htail
                  subst hans
                  refine ⟨?_, by simp; omega⟩
                  simp [ht1]

theorem newLoop_good :
    ∀ (fuel : Nat) (text : Str) (tokens : List MatcherToken) (leftovers : Str)
      (out : List MatcherToken),
      newLoop fuel tokens leftovers = NewRes.ok out →
      (∀ t ∈ tokens, TokenGood text t) →
      (∃ u, u ++ leftovers = text) →
      ∀ t ∈ out, TokenGood text t := by
  intro fuel
  induction fuel with
  | zero =>
      intro text tokens leftovers out h htok hsuf
      simp [newLoop] at h
  | succ n ih =>
      intro text tokens leftovers out h htok hsuf
      rw [newLoop] at h
      split at h
      · injection h with h1
        subst h1
        exact htok
      · rename_i h0
        split at h
        · rename_i hdot
          split at h
          · rename_i rest hsf
            refine ih text _ rest out h ?_ ?_
            · intro t ht
              rcases List.mem_append.mp ht with h1 | h2
              · exact htok t h1
              · rw [List.mem_singleton] at h2
                subst h2
                trivial
            · obtain ⟨u1, hu1⟩ := sliceFrom_append leftovers 1 rest hsf
              obtain ⟨u, hu⟩ := hsuf
              exact ⟨u ++ u1, by rw [List.append_assoc, hu1, hu]⟩
          · simp at h
        · rename_i hdot
          split at h
          · rename_i hpar
            split at h
            · simp at h
            · rename_i close_index hfb
              split at h
              · simp at h
              · rename_i inner hsr
                have hsub : SubstringOf inner text := by
                  obtain ⟨u, hu⟩ := hsuf
                  refine substring_trans
                    (sliceRange_substring leftovers 1 close_index inner hsr)
                    ⟨u, [], ?_⟩
                  rw [List.append_nil, hu]
                have htok2 :
                    ∀ t ∈ tokens ++ [MatcherToken.OneOfText (splitPipe inner)],
                      TokenGood text t := by
                  intro t ht
                  rcases List.mem_append.mp ht with h1 | h2
                  · exact htok t h1
                  · rw [List.mem_singleton] at h2
                    subst h2
                    refine ⟨splitPipe_ne_nil inner, ?_⟩
                    intro v hv
                    exact substring_trans (splitPipe_substring inner v hv) hsub
                split at h
                · split at h
                  · rename_i rest hsf2
                    refine ih text _ rest out h htok2 ?_
                    obtain ⟨u1, hu1⟩ :=
                      sliceFrom_append leftovers (close_index + 1) rest hsf2
                    obtain ⟨u, hu⟩ := hsuf
                    exact ⟨u ++ u1, by rw [List.append_assoc, hu1, hu]⟩
                  · simp at h
                · injection h with h1
                  subst h1
                  exact htok2
          · rename_i hpar
            split at h
            · rename_i index hns
              split at h
              · rename_i lit rest hst hsf3
                have hpos : 1 ≤ index :=
                  nextSep_pos leftovers index hns
                    (by rw [Bool.not_eq_true] at hdot; exact hdot)
                    (by rw [Bool.not_eq_true] at hpar; exact hpar)
                refine ih text _ rest out h ?_ ?_
                · intro t ht
                  rcases List.mem_append.mp ht with h1 | h2
                  · exact htok t h1
                  · rw [List.mem_singleton] at h2
                    subst h2
                    refine ⟨sliceTo_ne_nil leftovers index lit (by omega) hst, ?_⟩
                    obtain ⟨w, hw⟩ := sliceTo_append leftovers index lit hst
                    obtain ⟨u, hu⟩ := hsuf
                    exact ⟨u, w, by rw [List.append_assoc, hw, hu]⟩
                · obtain ⟨u1, hu1⟩ := sliceFrom_append leftovers index rest hsf3
                  obtain ⟨u, hu⟩ := hsuf
                  exact ⟨u ++ u1, by rw [List.append_assoc, hu1, hu]⟩
              · simp at h
            · rename_i hns
              refine ih text _ leftovers out h ?_ hsuf
              intro t ht
              rcases List.mem_append.mp ht with h1 | h2
              · exact htok t h1
              · rw [List.mem_singleton] at h2
                subst h2
                refine ⟨?_, ?_⟩
                · intro hnil
                  exact h0 (by rw [hnil]; rfl)
                · obtain ⟨u, hu⟩ := hsuf
                  exact ⟨u, [], by rw [List.append_nil, hu]⟩

theorem startsWithChar_false (s : Str) (c : Char)
    (h : findByte s c = none) : startsWithChar s c = false := by
  cases s with
  | nil => rfl
  | cons d ds =>
      rw [findByte] at h
      by_cases hd : d = c
      · rw [if_pos hd] at h
        simp at h
      · simp [startsWithChar, hd]

theorem newLoop_stuck (leftovers : Str) (h0 : leftovers ≠ [])
    (hd : findByte leftovers '.' = none) (hp : findByte leftovers '(' = none) :
    ∀ (fuel : Nat) (tokens : List MatcherToken),
      newLoop fuel tokens leftovers = NewRes.fuelOut := by
  intro fuel
  induction fuel with
  | zero => intro tokens; rfl
  | succ n ih =>
      intro tokens
      have hz : ¬ byteLen leftovers = 0 := fun hh => h0 ((byteLen_eq_zero leftovers).mp hh)
      have hd0 : startsWithChar leftovers '.' = false := startsWithChar_false leftovers '.' hd
      have hp0 : startsWithChar leftovers '(' = false := startsWithChar_false leftovers '(' hp
      have hns : nextSep leftovers = none := by
        unfold nextSep
        rw [hd, hp]
      rw [newLoop, if_neg hz, if_neg (by simp [hd0]), if_neg (by simp [hp0]), hns]
      exact ih (tokens ++ [MatcherToken.RawText leftovers])

/-- Claim C1: the claim states that the compile scan of `Matcher::new`
terminates on every pattern, the remaining suffix being emitted as one final
`Literal` token when it holds no further `.` or `(`.  The code violates
this: on the pattern `"abc"` the literal branch pushes `RawText("abc")` but
neither advances `leftovers` nor breaks, so the `while` loop runs forever —
for every fuel bound the loop is still running. -/
theorem C1_compile_scan_diverges_on_literal_tail :
    ∀ fuel : Nat, Matcher.new (toStr "abc") fuel = NewResult.fuelOut := by
  intro fuel
  unfold Matcher.new
  rw [newLoop_stuck (toStr "abc") (by decide) rfl rfl fuel []]

/-- Claim C2: the claim states that `Matcher::new` fails exactly on
patterns with an unterminated group and that every other input compiles
successfully.  The pattern `"abc"` has no unterminated group-open marker,
yet the compile call neither fails nor succeeds: it never returns at any
fuel bound, because of the missing advance in the final-literal branch. -/
theorem C2_nonmalformed_pattern_fails_to_compile :
    hasUnterminatedParen (toStr "abc") = false ∧
      ∀ fuel : Nat, Matcher.new (toStr "abc") fuel = NewResult.fuelOut := by
  refine ⟨rfl, ?_⟩
  intro fuel
  unfold Matcher.new
  rw [newLoop_stuck (toStr "abc") (by decide) rfl rfl fuel []]

/-- Claim C3 counterexample: the claim states `match_string` cannot fail,
even when a `Wildcard` token is reached with the candidate exhausted.  The
pattern `"."` compiles to the single token `WildCard`, and matching the
empty candidate evaluates `&substring[..1]` on an empty string — an
out-of-bounds slice, i.e. a panic (`none`). -/
theorem C3_cex_wildcard_panic_on_exhausted :
    Matcher.new (toStr ".") 2 =
        NewResult.ret (some (Matcher.mk (toStr ".") [MatcherToken.WildCard] 0)) ∧
      Matcher.match_string (Matcher.mk (toStr ".") [MatcherToken.WildCard] 0)
        (toStr "") = none :=
  ⟨rfl, rfl⟩

/-- Claim C3, amended: `match_string` cannot fail except through a
`Wildcard` token (reached with the candidate exhausted or with a multi-byte
character at the cursor); in particular any failing evaluation implies the
compiled token sequence contains a `WildCard`, so a matcher without
`WildCard` tokens never fails. -/
theorem C3_match_failure_only_from_wildcard :
    ∀ (m : Matcher) (s : Str), Matcher.match_string m s = none →
      MatcherToken.WildCard ∈ m.tokens := by
  intro m s h
  unfold Matcher.match_string at h
  rw [Option.map_eq_none'] at h
  exact matchTokens_none_wildcard m.tokens s h

/-- Witness for C3: the matcher of pattern `"a."` matching candidate `"a"`
exhausts the candidate at the `WildCard` and panics, and the theorem then
yields the `WildCard` membership. -/
theorem C3_match_failure_only_from_wildcard_witness :
    Matcher.match_string
        (Matcher.mk (toStr "a.")
          [MatcherToken.RawText (toStr "a"), MatcherToken.WildCard] 0)
        (toStr "a") = none ∧
      MatcherToken.WildCard ∈
        (Matcher.mk (toStr "a.")
          [MatcherToken.RawText (toStr "a"), MatcherToken.WildCard] 0).tokens :=
  ⟨rfl,
    C3_match_failure_only_from_wildcard
      (Matcher.mk (toStr "a.")
        [MatcherToken.RawText (toStr "a"), MatcherToken.WildCard] 0)
      (toStr "a") rfl⟩

/-- Claim C4: the claim states the `Wildcard` arm consumes one whole
Unicode scalar value and always succeeds when a character remains.  The
code slices `&substring[..1]` — one byte.  On the repository's own
suggested unicode variation of `simple_test` (candidate `"abcd💪"` for the
pattern `"abc(d|e|f)."`), the remaining candidate is the four-byte scalar
so the byte-1 boundary falls inside it and the slice panics, although a
character remains. -/
theorem C4_wildcard_consumes_byte_panics_on_multibyte :
    Matcher.new pat1 5 = NewResult.ret (some m1) ∧
      Matcher.match_string m1 (toStr "abcd💪") = none :=
  ⟨rfl, rfl⟩

/-- Claim C5: after every (returning) `match_string` call the field
`most_tokens_matched` equals the length of the sequence returned by that
same call, and at construction it is 0; line 108 overwrites it rather than
accumulating. -/
theorem C5_most_tokens_matched_eq_result_length :
    (∀ (m : Matcher) (s : Str) (p : List (MatcherToken × Str) × Matcher),
        Matcher.match_string m s = some p →
        p.2.most_tokens_matched = p.1.length) ∧
    (∀ (text : Str) (fuel : Nat) (m : Matcher),
        Matcher.new text fuel = NewResult.ret (some m) →
        m.most_tokens_matched = 0) := by
  constructor
  · intro m s p h
    unfold Matcher.match_string at h
    rw [Option.map_eq_some'] at h
    obtain ⟨ans, hans, hp⟩ := h
    rw [← hp]
  · intro text fuel m h
    unfold Matcher.new at h
    cases hnl : newLoop fuel [] text with
    | fuelOut => rw [hnl] at h; simp at h
    | malformed => rw [hnl] at h; simp at h
    | panicked => rw [hnl] at h; simp at h
    | ok tokens =>
        rw [hnl] at h
        simp at h
        subst h
        rfl

/-- Witness for C5: the repository's `simple_test` matcher on candidate
`"a"` (one literal token matched) and the empty pattern compiled at fuel 1. -/
theorem C5_most_tokens_matched_eq_result_length_witness :
    Matcher.match_string (Matcher.mk (toStr "a") [MatcherToken.RawText (toStr "a")] 0)
        (toStr "a") =
      some ([(MatcherToken.RawText (toStr "a"), toStr "a")],
        Matcher.mk (toStr "a") [MatcherToken.RawText (toStr "a")] 1) ∧
    (Matcher.mk (toStr "a") [MatcherToken.RawText (toStr "a")] 1).most_tokens_matched =
      [(MatcherToken.RawText (toStr "a"), toStr "a")].length ∧
    Matcher.new (toStr "") 1 = NewResult.ret (some (Matcher.mk (toStr "") [] 0)) ∧
    (Matcher.mk (toStr "") [] 0).most_tokens_matched = 0 :=
  ⟨rfl,
    C5_most_tokens_matched_eq_result_length.1
      (Matcher.mk (toStr "a") [MatcherToken.RawText (toStr "a")] 0) (toStr "a")
      ([(MatcherToken.RawText (toStr "a"), toStr "a")],
        Matcher.mk (toStr "a") [MatcherToken.RawText (toStr "a")] 1) rfl,
    rfl,
    C5_most_tokens_matched_eq_result_length.2 (toStr "") 1
      (Matcher.mk (toStr "") [] 0) rfl⟩

/-- Claim C6: every returning `match_string` call yields a prefix-aligned
run of the compiled tokens: the first components of the result are exactly
the first `k` tokens of the matcher, and `k` never exceeds the token count. -/
theorem C6_result_is_token_run :
    ∀ (m : Matcher) (s : Str) (p : List (MatcherToken × Str) × Matcher),
      Matcher.match_string m s = some p →
      List.map Prod.fst p.1 = List.take p.1.length m.tokens ∧
        p.1.length ≤ m.tokens.length := by
  intro m s p h
  unfold Matcher.match_string at h
  rw [Option.map_eq_some'] at h
  obtain ⟨ans, hans, hp⟩ := h
  rw [← hp]
  exact matchTokens_take m.tokens s ans hans

/-- Witness for C6: the repository's `simple_test` first scenario, matcher
of `"abc(d|e|f)."` against `"abcge"`: one token matched out of three. -/
theorem C6_result_is_token_run_witness :
    Matcher.match_string m1 (toStr "abcge") =
      some ([(MatcherToken.RawText (toStr "abc"), toStr "abc")],
        Matcher.mk pat1 tokens1 1) ∧
    (List.map Prod.fst [(MatcherToken.RawText (toStr "abc"), toStr "abc")] =
        List.take 1 m1.tokens ∧
      ([(MatcherToken.RawText (toStr "abc"), toStr "abc")] :
          List (MatcherToken × Str)).length ≤ m1.tokens.length) :=
  ⟨rfl,
    C6_result_is_token_run m1 (toStr "abcge")
      ([(MatcherToken.RawText (toStr "abc"), toStr "abc")],
        Matcher.mk pat1 tokens1 1) rfl⟩

/-- Claim C7: the `OneOfText` arm tries the alternatives in listed order;
the first alternative the remaining candidate starts with is recorded and
the cursor advances past its length, and when none matches the walk stops
immediately with the answer collected so far. -/
theorem C7_alternatives_first_match_in_order :
    ∀ (vs : List Str) (rest : List MatcherToken) (s : Str),
      matchTokens (MatcherToken.OneOfText vs :: rest) s =
        match vs.find? (fun v => startsWith s v) with
        | some v =>
            (matchTokens rest (List.drop v.length s)).map
              (fun tail => (MatcherToken.OneOfText vs, v) :: tail)
        | none => some [] := by
  intro vs rest s
  cases hf : vs.find? (fun v => startsWith s v) with
  | none => simp [matchTokens, tryVariants_eq, hf]
  | some v => simp [matchTokens, tryVariants_eq, hf]

/-- Claim C8: `match_string` is per-candidate idempotent: a second call on
the same candidate returns the same answer and leaves the matcher in the
same state, since the walk only reads the immutable token list. -/
theorem C8_match_string_idempotent :
    ∀ (m : Matcher) (s : Str) (ans : List (MatcherToken × Str)) (m2 : Matcher),
      Matcher.match_string m s = some (ans, m2) →
      Matcher.match_string m2 s = some (ans, m2) := by
  intro m s ans m2 h
  unfold Matcher.match_string at h ⊢
  rw [Option.map_eq_some'] at h
  obtain ⟨a, ha, hpair⟩ := h
  injection hpair with h1 h2
  subst h1
  subst h2
  simp [ha]

/-- Witness for C8: the `simple_test` matcher on `"abcge"`, called twice. -/
theorem C8_match_string_idempotent_witness :
    Matcher.match_string m1 (toStr "abcge") =
      some ([(MatcherToken.RawText (toStr "abc"), toStr "abc")],
        Matcher.mk pat1 tokens1 1) ∧
    Matcher.match_string (Matcher.mk pat1 tokens1 1) (toStr "abcge") =
      some ([(MatcherToken.RawText (toStr "abc"), toStr "abc")],
        Matcher.mk pat1 tokens1 1) :=
  ⟨rfl,
    C8_match_string_idempotent m1 (toStr "abcge")
      [(MatcherToken.RawText (toStr "abc"), toStr "abc")]
      (Matcher.mk pat1 tokens1 1) rfl⟩

/-- Claim C9 counterexample: the claim states every string inside every
`OneOfText` token is non-empty, but the pattern `"()"` compiles and its
single token is `OneOfText [""]` — one empty alternative. -/
theorem C9_cex_empty_alternative :
    ¬ ∀ (text : Str) (fuel : Nat) (m : Matcher),
        Matcher.new text fuel = NewResult.ret (some m) →
        ∀ vs, MatcherToken.OneOfText vs ∈ m.tokens → ∀ v ∈ vs, v ≠ [] := by
  intro hclaim
  exact hclaim (toStr "()") 1 (Matcher.mk (toStr "()") [MatcherToken.OneOfText [[]]] 0)
    rfl [[]] (by simp) [] (by simp) rfl

/-- Claim C9, amended: in every successfully compiled matcher, every
`RawText` payload is a non-empty substring of the pattern text, and every
`OneOfText` payload is a non-empty list of (possibly empty) substrings of
the pattern text. -/
theorem C9_tokens_good :
    ∀ (text : Str) (fuel : Nat) (m : Matcher),
      Matcher.new text fuel = NewResult.ret (some m) →
      ∀ t ∈ m.tokens, TokenGood text t := by
  intro text fuel m h
  unfold Matcher.new at h
  cases hnl : newLoop fuel [] text with
  | fuelOut => rw [hnl] at h; simp at h
  | malformed => rw [hnl] at h; simp at h
  | panicked => rw [hnl] at h; simp at h
  | ok tokens =>
      rw [hnl] at h
      simp at h
      subst h
      intro t ht
      exact newLoop_good fuel text [] text tokens hnl (by simp) ⟨[], rfl⟩ t ht

/-- Witness for C9: the `simple_test` matcher, all three tokens good. -/
theorem C9_tokens_good_witness :
    Matcher.new pat1 5 = NewResult.ret (some m1) ∧
      ∀ t ∈ m1.tokens, TokenGood pat1 t :=
  ⟨rfl, C9_tokens_good pat1 5 m1 rfl⟩

/-- Claim C10: `match_string` mutates only `most_tokens_matched`; the
pattern text and the compiled token sequence of the matcher are unchanged
by every returning call. -/
theorem C10_match_string_frame :
    ∀ (m : Matcher) (s : Str) (p : List (MatcherToken × Str) × Matcher),
      Matcher.match_string m s = some p →
      p.2.text = m.text ∧ p.2.tokens = m.tokens := by
  intro m s p h
  unfold Matcher.match_string at h
  rw [Option.map_eq_some'] at h
  obtain ⟨ans, hans, hp⟩ := h
  rw [← hp]
  exact ⟨rfl, rfl⟩

/-- Witness for C10: the `simple_test` matcher on `"abcde"` (all three
tokens matched); text and tokens are untouched. -/
theorem C10_match_string_frame_witness :
    Matcher.match_string m1 (toStr "abcde") =
      some ([(MatcherToken.RawText (toStr "abc"), toStr "abc"),
             (MatcherToken.OneOfText [toStr "d", toStr "e", toStr "f"], toStr "d"),
             (MatcherToken.WildCard, toStr "e")],
        Matcher.mk pat1 tokens1 3) ∧
    ((Matcher.mk pat1 tokens1 3).text = m1.text ∧
      (Matcher.mk pat1 tokens1 3).tokens = m1.tokens) :=
  ⟨rfl,
    C10_match_string_frame m1 (toStr "abcde")
      ([(MatcherToken.RawText (toStr "abc"), toStr "abc"),
        (MatcherToken.OneOfText [toStr "d", toStr "e", toStr "f"], toStr "d"),
        (MatcherToken.WildCard, toStr "e")],
        Matcher.mk pat1 tokens1 3) rfl⟩
